import Mathlib

/-!
Shallow embedding of the filter-and-aggregation engine of the wine dashboard
`src/business_case.py`, together with proofs about it.

Conventions of the embedding:
* a dataframe is a `List WineRecord`; a missing cell (pandas `NaN`) is `none`;
* pandas comparisons against `NaN` (`==`, `>=`, `<=`, `isin`) are `false`,
  and `str.contains(..., na=False)` is `false` on a missing cell;
* prices are rationals, ratings are integers;
* `groupby('Country')` sorts its keys ascending and drops missing keys;
* `Series.sort_values(ascending=False)` is modelled after pandas'
  `nargsort` (pandas ≥ 1.2): the non-missing entries are reversed, argsorted
  ascending with a stable sort, and the result is reversed again — a stable
  descending sort in which tied entries keep their original order — with
  missing values kept at the end (`na_position='last'`).
-/

/-- One row of the wine dataset. Missing values are `none`. -/
structure WineRecord where
  country : Option String
  region : Option String
  grape : Option String
  price_usd : Option ℚ
  rating : Option Int
  deriving Repr, DecidableEq

/-- The sidebar filter state (lines 24-41 of the source). -/
structure ConstraintSpec where
  countries : List String
  regions : List String
  grapes : List String
  price_range : ℚ × ℚ
  rating_range : Int × Int
  focus_mode : Bool
  deriving Repr, DecidableEq

/-- Character list of a string, lower-cased character-wise (as `str.lower()`). -/
def lowerChars (s : String) : List Char := s.data.map Char.toLower

/-- `pat` occurs at the head of `s`. -/
def startsWithChars : List Char → List Char → Bool
  | [], _ => true
  | _ :: _, [] => false
  | a :: as, b :: bs => a == b && startsWithChars as bs

/-- `pat` occurs somewhere inside `s` (substring test on char lists). -/
def hasSubChars (pat : List Char) : List Char → Bool
  | [] => startsWithChars pat []
  | c :: rest => startsWithChars pat (c :: rest) || hasSubChars pat rest

/-- One cell of `series.str.contains(pat, case=False, na=False)`:
case-insensitive substring test, a missing cell never matches. -/
def containsCI (hay : Option String) (pat : String) : Bool :=
  match hay with
  | none => false
  | some s => hasSubChars (lowerChars pat) (lowerChars s)

/-- One cell of `series.isin(sel)`: a missing cell is in no list of strings. -/
def isinOpt (v : Option String) (sel : List String) : Bool :=
  match v with
  | none => false
  | some s => sel.contains s

/-- One cell of `series >= lo` on prices: `NaN >= lo` is `false` in pandas. -/
def geQ (v : Option ℚ) (lo : ℚ) : Bool :=
  match v with
  | none => false
  | some x => decide (lo ≤ x)

/-- One cell of `series <= hi` on prices: `NaN <= hi` is `false` in pandas. -/
def leQ (v : Option ℚ) (hi : ℚ) : Bool :=
  match v with
  | none => false
  | some x => decide (x ≤ hi)

/-- One cell of `series >= lo` on ratings. -/
def geZ (v : Option Int) (lo : Int) : Bool :=
  match v with
  | none => false
  | some x => decide (lo ≤ x)

/-- One cell of `series <= hi` on ratings. -/
def leZ (v : Option Int) (hi : Int) : Bool :=
  match v with
  | none => false
  | some x => decide (x ≤ hi)

/-- The focus-mode row mask (lines 45-51 of the source). -/
def focusRow (C : ConstraintSpec) (r : WineRecord) : Bool :=
  (r.country == some "France") &&
  containsCI r.region "Burgundy" &&
  containsCI r.grape "Pinot Noir" &&
  geQ r.price_usd C.price_range.1 && leQ r.price_usd C.price_range.2 &&
  geZ r.rating C.rating_range.1 && leZ r.rating C.rating_range.2

/-- The plain row mask (lines 53-59 of the source). -/
def plainRow (C : ConstraintSpec) (r : WineRecord) : Bool :=
  isinOpt r.country C.countries &&
  isinOpt r.region C.regions &&
  isinOpt r.grape C.grapes &&
  geQ r.price_usd C.price_range.1 && leQ r.price_usd C.price_range.2 &&
  geZ r.rating C.rating_range.1 && leZ r.rating C.rating_range.2

/-- `filtered_df` (lines 44-59 of the source). -/
def filtered_df (R : List WineRecord) (C : ConstraintSpec) : List WineRecord :=
  if C.focus_mode then R.filter (focusRow C) else R.filter (plainRow C)

/-- `pat` is a contiguous substring of `s` after lower-casing both
(spec wording of "contains, case-insensitive substring"). -/
def SubstringCI (pat s : String) : Prop :=
  ∃ pre post, lowerChars s = pre ++ lowerChars pat ++ post

/-- The spec's wording of the non-focus filter predicate (§4.1 `filter`, else
branch): field membership and inclusive bounds, a record with a missing value
on a referenced field fails that clause. -/
def specPlainPred (C : ConstraintSpec) (r : WineRecord) : Prop :=
  (∃ c, r.country = some c ∧ c ∈ C.countries) ∧
  (∃ s, r.region = some s ∧ s ∈ C.regions) ∧
  (∃ s, r.grape = some s ∧ s ∈ C.grapes) ∧
  (∃ p, r.price_usd = some p ∧ C.price_range.1 ≤ p ∧ p ≤ C.price_range.2) ∧
  (∃ n, r.rating = some n ∧ C.rating_range.1 ≤ n ∧ n ≤ C.rating_range.2)

/-- The spec's wording of the focus-mode predicate (§4.1 `filter`, focus
branch, with price and rating bounds additionally applied). -/
def specFocusPred (C : ConstraintSpec) (r : WineRecord) : Prop :=
  r.country = some "France" ∧
  (∃ s, r.region = some s ∧ SubstringCI "burgundy" s) ∧
  (∃ s, r.grape = some s ∧ SubstringCI "pinot noir" s) ∧
  (∃ p, r.price_usd = some p ∧ C.price_range.1 ≤ p ∧ p ≤ C.price_range.2) ∧
  (∃ n, r.rating = some n ∧ C.rating_range.1 ≤ n ∧ n ≤ C.rating_range.2)

/-- First record of the §8 scenario. -/
def rec1 : WineRecord :=
  ⟨some "France", some "Burgundy", some "Pinot Noir", some 45, some 92⟩

/-- Second record of the §8 scenario. -/
def rec2 : WineRecord :=
  ⟨some "US", some "Napa", some "Cabernet", some 60, some 88⟩

/-- Third record of the §8 scenario. -/
def rec3 : WineRecord :=
  ⟨some "France", some "Burgundy", some "Pinot Noir", some 200, some 95⟩

/-- The three-record scenario of §8. -/
def scenarioR : List WineRecord := [rec1, rec2, rec3]

/-- Focus-mode constraints with all-encompassing bounds, as in §8. -/
def scenarioFocusC : ConstraintSpec := ⟨[], [], [], (0, 1000), (0, 100), true⟩

theorem startsWithChars_iff (pat s : List Char) :
    startsWithChars pat s = true ↔ ∃ post, s = pat ++ post := by
  induction pat generalizing s with
  | nil => simp [startsWithChars]
  | cons a as ih =>
    cases s with
    | nil => simp [startsWithChars]
    | cons b bs =>
      simp only [startsWithChars, Bool.and_eq_true, beq_iff_eq, ih]
      constructor
      · rintro ⟨rfl, post, rfl⟩
        exact ⟨post, rfl⟩
      · rintro ⟨post, h⟩
        rw [List.cons_append] at h
        cases h
        exact ⟨rfl, post, rfl⟩

theorem hasSubChars_iff (pat s : List Char) :
    hasSubChars pat s = true ↔ ∃ pre post, s = pre ++ pat ++ post := by
  induction s with
  | nil =>
    simp only [hasSubChars, startsWithChars_iff]
    constructor
    · rintro ⟨post, h⟩
      exact ⟨[], post, h⟩
    · rintro ⟨pre, post, h⟩
      cases pre with
      | nil => exact ⟨post, h⟩
      | cons x xs => simp at h
  | cons c rest ih =>
    simp only [hasSubChars, Bool.or_eq_true, startsWithChars_iff, ih]
    constructor
    · rintro (⟨post, h⟩ | ⟨pre, post, h⟩)
      · exact ⟨[], post, by simpa using h⟩
      · exact ⟨c :: pre, post, by simp [h]⟩
    · rintro ⟨pre, post, h⟩
      cases pre with
      | nil => exact Or.inl ⟨post, by simpa using h⟩
      | cons x xs =>
        rw [List.cons_append, List.cons_append] at h
        cases h
        exact Or.inr ⟨xs, post, by simp⟩

theorem containsCI_iff (hay : Option String) (pat : String) :
    containsCI hay pat = true ↔ ∃ s, hay = some s ∧ SubstringCI pat s := by
  cases hay with
  | none => simp [containsCI]
  | some s =>
    simp only [containsCI, hasSubChars_iff, SubstringCI, Option.some.injEq]
    constructor
    · rintro ⟨pre, post, h⟩
      exact ⟨s, rfl, pre, post, by simpa using h⟩
    · rintro ⟨s', h, pre, post, hsub⟩
      cases h
      exact ⟨pre, post, by simpa using hsub⟩

theorem isinOpt_iff (v : Option String) (sel : List String) :
    isinOpt v sel = true ↔ ∃ s, v = some s ∧ s ∈ sel := by
  cases v with
  | none => simp [isinOpt]
  | some s => simp [isinOpt, List.contains_iff_exists_mem_beq]

theorem geQ_iff (v : Option ℚ) (lo : ℚ) :
    geQ v lo = true ↔ ∃ x, v = some x ∧ lo ≤ x := by
  cases v <;> simp [geQ]

theorem leQ_iff (v : Option ℚ) (hi : ℚ) :
    leQ v hi = true ↔ ∃ x, v = some x ∧ x ≤ hi := by
  cases v <;> simp [leQ]

theorem geZ_iff (v : Option Int) (lo : Int) :
    geZ v lo = true ↔ ∃ x, v = some x ∧ lo ≤ x := by
  cases v <;> simp [geZ]

theorem leZ_iff (v : Option Int) (hi : Int) :
    leZ v hi = true ↔ ∃ x, v = some x ∧ x ≤ hi := by
  cases v <;> simp [leZ]

theorem plainRow_iff (C : ConstraintSpec) (r : WineRecord) :
    plainRow C r = true ↔ specPlainPred C r := by
  obtain ⟨co, re, gr, pr, ra⟩ := r
  simp only [plainRow, specPlainPred, Bool.and_eq_true, isinOpt_iff,
    geQ_iff, leQ_iff, geZ_iff, leZ_iff]
  cases pr <;> cases ra <;> (simp; all_goals aesop)

theorem lowerChars_burgundy : lowerChars "Burgundy" = lowerChars "burgundy" := by
  decide

theorem lowerChars_pinot : lowerChars "Pinot Noir" = lowerChars "pinot noir" := by
  decide

theorem focusRow_iff (C : ConstraintSpec) (r : WineRecord) :
    focusRow C r = true ↔ specFocusPred C r := by
  obtain ⟨co, re, gr, pr, ra⟩ := r
  simp only [focusRow, specFocusPred, Bool.and_eq_true, beq_iff_eq,
    containsCI_iff, geQ_iff, leQ_iff, geZ_iff, leZ_iff, SubstringCI,
    lowerChars_burgundy, lowerChars_pinot]
  cases pr <;> cases ra <;> (simp; all_goals aesop)

/-- A concrete non-focus constraint used to witness the C1 theorem. -/
def exPlainC : ConstraintSpec :=
  ⟨["France", "US"], ["Burgundy", "Napa"], ["Pinot Noir", "Cabernet"],
   (0, 1000), (0, 100), false⟩

/-- C1: with `focus_mode` off, `filtered_df` is exactly the order-preserving
subsequence of the input matching the spec's conjunction of membership and
inclusive-bound clauses, where a missing value on a referenced field fails
that clause. -/
theorem c1_plain_filter_correct (R : List WineRecord) (C : ConstraintSpec)
    (hf : C.focus_mode = false) :
    List.Sublist (filtered_df R C) R ∧
    filtered_df R C = R.filter (plainRow C) ∧
    ∀ r, plainRow C r = true ↔ specPlainPred C r := by
  refine ⟨?_, ?_, plainRow_iff C⟩
  · rw [filtered_df]
    split <;> exact List.filter_sublist R
  · rw [filtered_df, if_neg (by simp [hf])]

theorem c1_witness :
    filtered_df scenarioR exPlainC = scenarioR.filter (plainRow exPlainC) :=
  (c1_plain_filter_correct scenarioR exPlainC rfl).2.1

/-- C2: with `focus_mode` on, `filtered_df` filters by country = France,
region containing "burgundy" and grape containing "pinot noir" as
case-insensitive substrings, with the price and rating bounds additionally
applied; on the §8 scenario it returns the two Burgundy Pinot Noir records
in original order. -/
theorem c2_focus_filter_correct (R : List WineRecord) (C : ConstraintSpec)
    (hf : C.focus_mode = true) :
    filtered_df R C = R.filter (focusRow C) ∧
    (∀ r, focusRow C r = true ↔ specFocusPred C r) ∧
    filtered_df scenarioR scenarioFocusC = [rec1, rec3] := by
  refine ⟨?_, focusRow_iff C, by decide⟩
  rw [filtered_df, if_pos (by simp [hf])]

theorem c2_witness :
    filtered_df scenarioR scenarioFocusC = [rec1, rec3] :=
  (c2_focus_filter_correct scenarioR scenarioFocusC rfl).2.2

/-- Insert `x` into `l` in front of the first element `y` with `le x y`
(one step of a stable ascending insertion sort). -/
def insBy {α : Type} (le : α → α → Bool) (x : α) : List α → List α
  | [] => [x]
  | y :: ys => if le x y then x :: y :: ys else y :: insBy le x ys

/-- Stable ascending insertion sort with boolean comparison `le`. -/
def sortBy {α : Type} (le : α → α → Bool) : List α → List α
  | [] => []
  | x :: xs => insBy le x (sortBy le xs)

theorem perm_insBy {α : Type} (le : α → α → Bool) (x : α) (l : List α) :
    List.Perm (insBy le x l) (x :: l) := by
  induction l with
  | nil => simp [insBy]
  | cons y ys ih =>
    rw [insBy]
    split
    · exact List.Perm.refl _
    · exact List.Perm.trans (List.Perm.cons y ih) (List.Perm.swap x y ys)

theorem perm_sortBy {α : Type} (le : α → α → Bool) (l : List α) :
    List.Perm (sortBy le l) l := by
  induction l with
  | nil => simp [sortBy]
  | cons x xs ih =>
    exact List.Perm.trans (perm_insBy le x (sortBy le xs)) (List.Perm.cons x ih)

theorem mem_sortBy {α : Type} (le : α → α → Bool) (l : List α) (a : α) :
    a ∈ sortBy le l ↔ a ∈ l :=
  (perm_sortBy le l).mem_iff

theorem pairwise_insBy {α : Type} (le : α → α → Bool)
    (htot : ∀ a b, le a b = true ∨ le b a = true)
    (htrans : ∀ a b c, le a b = true → le b c = true → le a c = true)
    (x : α) (l : List α) (hl : l.Pairwise (fun a b => le a b = true)) :
    (insBy le x l).Pairwise (fun a b => le a b = true) := by
  induction l with
  | nil => simp [insBy]
  | cons y ys ih =>
    rw [insBy]
    rcases List.pairwise_cons.mp hl with ⟨hy, hys⟩
    split
    · rename_i hxy
      refine List.pairwise_cons.mpr ⟨?_, hl⟩
      intro z hz
      rcases List.mem_cons.mp hz with rfl | hz
      · exact hxy
      · exact htrans x y z hxy (hy z hz)
    · rename_i hxy
      refine List.pairwise_cons.mpr ⟨?_, ih hys⟩
      intro z hz
      rcases List.mem_cons.mp ((perm_insBy le x ys).mem_iff.mp hz) with rfl | h
      · rcases htot z y with h' | h'
        · exact absurd h' hxy
        · exact h'
      · exact hy z h

theorem pairwise_sortBy {α : Type} (le : α → α → Bool)
    (htot : ∀ a b, le a b = true ∨ le b a = true)
    (htrans : ∀ a b c, le a b = true → le b c = true → le a c = true)
    (l : List α) :
    (sortBy le l).Pairwise (fun a b => le a b = true) := by
  induction l with
  | nil => simp [sortBy]
  | cons x xs ih => exact pairwise_insBy le htot htrans x (sortBy le xs) ih

/-- `unique()` with an accumulator of already seen values: keeps the first
occurrence of each value, in first-occurrence order, as pandas does. -/
def firstDedupAux (seen : List String) : List String → List String
  | [] => []
  | x :: xs =>
    if seen.contains x then firstDedupAux seen xs
    else x :: firstDedupAux (x :: seen) xs

/-- `series.unique()`: distinct values in order of first occurrence. -/
def firstDedup (l : List String) : List String := firstDedupAux [] l

theorem strContains_iff (l : List String) (a : String) :
    l.contains a = true ↔ a ∈ l := by
  simp [List.contains_iff_exists_mem_beq]

theorem mem_firstDedupAux (l : List String) :
    ∀ (seen : List String) (a : String),
      a ∈ firstDedupAux seen l ↔ a ∈ l ∧ a ∉ seen := by
  induction l with
  | nil => simp [firstDedupAux]
  | cons x xs ih =>
    intro seen a
    rw [firstDedupAux]
    split
    · rename_i hx
      rw [strContains_iff] at hx
      rw [ih seen a]
      constructor
      · rintro ⟨h1, h2⟩
        exact ⟨List.mem_cons_of_mem x h1, h2⟩
      · rintro ⟨h1, h2⟩
        rcases List.mem_cons.mp h1 with rfl | h1
        · exact absurd hx h2
        · exact ⟨h1, h2⟩
    · rename_i hx
      rw [Bool.not_eq_true, ← Bool.not_eq_true, strContains_iff] at hx
      constructor
      · intro h
        rcases List.mem_cons.mp h with rfl | h
        · exact ⟨List.mem_cons_self _ _, hx⟩
        · rw [ih (x :: seen) a] at h
          exact ⟨List.mem_cons_of_mem x h.1,
            fun hs => h.2 (List.mem_cons_of_mem x hs)⟩
      · rintro ⟨h1, h2⟩
        rcases List.mem_cons.mp h1 with rfl | h1
        · exact List.mem_cons_self _ _
        · by_cases hax : a = x
          · cases hax
            exact List.mem_cons_self _ _
          · refine List.mem_cons_of_mem x ((ih (x :: seen) a).mpr ⟨h1, ?_⟩)
            intro hs
            rcases List.mem_cons.mp hs with h | h
            · exact hax h
            · exact h2 h

theorem mem_firstDedup (l : List String) (a : String) :
    a ∈ firstDedup l ↔ a ∈ l := by
  rw [firstDedup, mem_firstDedupAux]
  simp

theorem nodup_firstDedupAux (l : List String) :
    ∀ seen : List String, (firstDedupAux seen l).Nodup := by
  induction l with
  | nil => simp [firstDedupAux]
  | cons x xs ih =>
    intro seen
    rw [firstDedupAux]
    split
    · exact ih seen
    · refine List.nodup_cons.mpr ⟨?_, ih (x :: seen)⟩
      intro hx
      exact ((mem_firstDedupAux xs (x :: seen) x).mp hx).2 (List.mem_cons_self x seen)

theorem nodup_firstDedup (l : List String) : (firstDedup l).Nodup :=
  nodup_firstDedupAux l []

/-- Lexicographic comparison of char lists, character by character. -/
def charsLe : List Char → List Char → Bool
  | [], _ => true
  | _ :: _, [] => false
  | a :: as, b :: bs =>
    if a < b then true
    else if b < a then false
    else charsLe as bs

/-- Boolean string comparison used to model Python's `sorted` on strings. -/
def strLeB (a b : String) : Bool := charsLe a.data b.data

theorem charsLe_iff_not_lt (l₁ : List Char) :
    ∀ l₂, charsLe l₁ l₂ = true ↔ ¬ List.lt l₂ l₁ := by
  induction l₁ with
  | nil =>
    intro l₂
    constructor
    · intro _ h
      cases h
    · intro _
      rfl
  | cons a as ih =>
    intro l₂
    cases l₂ with
    | nil =>
      constructor
      · intro h
        exact absurd h (by simp [charsLe])
      · intro h
        exact absurd (List.lt.nil a as) h
    | cons b bs =>
      rw [charsLe]
      by_cases hab : a < b
      · rw [if_pos hab]
        simp only [true_iff]
        intro hlt
        cases hlt with
        | head _ _ h => exact absurd h (lt_asymm hab)
        | tail h1 h2 h3 => exact h2 hab
      · by_cases hba : b < a
        · rw [if_neg hab, if_pos hba]
          constructor
          · intro h
            exact absurd h Bool.false_ne_true
          · intro h
            exact absurd (List.lt.head _ _ hba) h
        · rw [if_neg hab, if_neg hba, ih bs]
          constructor
          · intro h hlt
            cases hlt with
            | head _ _ hh => exact hba hh
            | tail h1 h2 h3 => exact h h3
          · intro h hlt
            exact h (List.lt.tail hba hab hlt)

theorem strLeB_iff (a b : String) : strLeB a b = true ↔ a ≤ b := by
  refine Iff.trans (charsLe_iff_not_lt a.data b.data) ?_
  rw [String.le_iff_toList_le, ← not_lt]
  constructor
  · intro h hlt
    exact h ((List.lt_iff_lex_lt _ _).mpr hlt)
  · intro h hlt
    exact h ((List.lt_iff_lex_lt _ _).mp hlt)

/-- Computable strict string comparison: `a < b` as `¬ (b ≤ a)`. -/
def strLtB (a b : String) : Bool := !(strLeB b a)

theorem strLtB_iff (a b : String) : strLtB a b = true ↔ a < b := by
  rw [strLtB, Bool.not_eq_true']
  constructor
  · intro h
    rcases lt_or_le a b with h' | h'
    · exact h'
    · rw [(strLeB_iff b a).mpr h'] at h
      exact absurd h (by simp)
  · intro h
    by_cases hc : strLeB b a = true
    · exact absurd ((strLeB_iff b a).mp hc) (not_le_of_lt h)
    · simpa using hc

theorem strLeB_total (a b : String) : strLeB a b = true ∨ strLeB b a = true := by
  rcases le_total a b with h | h
  · exact Or.inl ((strLeB_iff a b).mpr h)
  · exact Or.inr ((strLeB_iff b a).mpr h)

theorem strLeB_trans (a b c : String)
    (hab : strLeB a b = true) (hbc : strLeB b c = true) : strLeB a c = true :=
  (strLeB_iff a c).mpr (le_trans ((strLeB_iff a b).mp hab) ((strLeB_iff b c).mp hbc))

/-- `df[df['Country'].isin(sel)]['Region'].dropna().unique()` (line 26). -/
def regions_available (R : List WineRecord) (sel : List String) : List String :=
  firstDedup ((R.filter (fun r => isinOpt r.country sel)).filterMap (·.region))

/-- `sorted(regions_available)` (line 27): the spec's `availableRegions`. -/
def availableRegions (R : List WineRecord) (sel : List String) : List String :=
  sortBy strLeB (regions_available R sel)

theorem mem_availableRegions (R : List WineRecord) (sel : List String)
    (s : String) :
    s ∈ availableRegions R sel ↔
      ∃ r ∈ R, (∃ c, r.country = some c ∧ c ∈ sel) ∧ r.region = some s := by
  rw [availableRegions, mem_sortBy, regions_available, mem_firstDedup]
  simp only [List.mem_filterMap, List.mem_filter, isinOpt_iff]
  constructor
  · rintro ⟨r, ⟨hr, c, hc, hcsel⟩, hreg⟩
    exact ⟨r, hr, ⟨c, hc, hcsel⟩, hreg⟩
  · rintro ⟨r, hr, ⟨c, hc, hcsel⟩, hreg⟩
    exact ⟨r, ⟨hr, c, hc, hcsel⟩, hreg⟩

/-- C8: `availableRegions` returns the distinct, non-missing regions of the
records whose country is selected, sorted ascending; an empty country
selection yields the empty sequence, and on the §8 scenario selecting
France yields exactly `["Burgundy"]`. -/
theorem c8_available_regions (R : List WineRecord) (sel : List String) :
    (availableRegions R sel).Pairwise (fun a b => a ≤ b) ∧
    (availableRegions R sel).Nodup ∧
    (∀ s, s ∈ availableRegions R sel ↔
      ∃ r ∈ R, (∃ c, r.country = some c ∧ c ∈ sel) ∧ r.region = some s) ∧
    (∀ R' : List WineRecord, availableRegions R' [] = []) ∧
    availableRegions scenarioR ["France"] = ["Burgundy"] := by
  refine ⟨?_, ?_, mem_availableRegions R sel, ?_, by decide⟩
  · have h := pairwise_sortBy strLeB strLeB_total strLeB_trans
      (regions_available R sel)
    exact h.imp (fun hab => (strLeB_iff _ _).mp hab)
  · exact ((perm_sortBy strLeB _).nodup_iff).mpr
      (nodup_firstDedup _)
  · intro R'
    rw [List.eq_nil_iff_forall_not_mem]
    intro s hs
    rcases (mem_availableRegions R' [] s).mp hs with ⟨r, _, ⟨c, _, hcsel⟩, _⟩
    simp at hcsel

/-- C7: with `focus_mode` off and all three selection lists empty, the
filter returns the empty sequence (empty selection matches nothing, as
`isin([])` does). -/
theorem c7_empty_selection (R : List WineRecord)
    (pr : ℚ × ℚ) (rr : Int × Int) :
    filtered_df R ⟨[], [], [], pr, rr, false⟩ = [] := by
  rw [filtered_df, if_neg (by simp), List.filter_eq_nil_iff]
  intro r _
  simp [plainRow, isinOpt]
  cases r.country <;> simp

/-- The non-missing entries of the `Country` column. -/
def countryCol (R : List WineRecord) : List String := R.filterMap (·.country)

/-- `df['Country'].value_counts()` (line 85): occurrence counts of the
distinct non-missing countries, sorted descending by count. -/
def value_counts (R : List WineRecord) : List (String × Nat) :=
  sortBy (fun a b => decide (b.2 ≤ a.2))
    ((firstDedup (countryCol R)).map (fun c => (c, (countryCol R).count c)))

/-- `df['Country'].value_counts().head(k)` (line 85; the source uses k = 10). -/
def top_countries (R : List WineRecord) (k : Nat) : List (String × Nat) :=
  (value_counts R).take k


theorem count_filter_split (x : String) (seen : List String)
    (hx : seen.contains x = false) (xs : List String) :
    xs.count x + (xs.filter (fun y => !((x :: seen).contains y))).length =
      (xs.filter (fun y => !(seen.contains y))).length := by
  induction xs with
  | nil => simp
  | cons y ys ih =>
    by_cases hyx : y = x
    · subst hyx
      have h1 : (!((y :: seen).contains y)) = false := by simp
      have h2 : (!(seen.contains y)) = true := by rw [hx]; rfl
      rw [List.count_cons_self, List.filter_cons, List.filter_cons, h1, h2]
      simp only [Bool.false_eq_true, if_false, if_true, List.length_cons]
      omega
    · have hbeq : (y == x) = false := by simpa using hyx
      have hc : ((x :: seen).contains y) = seen.contains y := by
        simp only [List.contains_cons]
        rw [hbeq, Bool.false_or]
      have hcount : (y :: ys).count x = ys.count x := by
        rw [List.count_cons, hbeq]
        simp
      rw [hcount, List.filter_cons, List.filter_cons, hc]
      by_cases hys : seen.contains y = true
      · simp only [hys, Bool.not_true, Bool.false_eq_true, if_false]
        exact ih
      · have : seen.contains y = false := by
          simpa using hys
        simp only [this, Bool.not_false, if_true, List.length_cons]
        omega

theorem sum_counts_firstDedupAux (l : List String) :
    ∀ seen : List String,
      ((firstDedupAux seen l).map (fun c => l.count c)).sum =
        (l.filter (fun y => !(seen.contains y))).length := by
  induction l with
  | nil => intro seen; simp [firstDedupAux]
  | cons x xs ih =>
    intro seen
    rw [firstDedupAux]
    by_cases hx : seen.contains x = true
    · rw [if_pos hx]
      have hmap : (firstDedupAux seen xs).map (fun c => (x :: xs).count c) =
          (firstDedupAux seen xs).map (fun c => xs.count c) := by
        apply List.map_congr_left
        intro c hc
        have hcs := (mem_firstDedupAux xs seen c).mp hc
        have hne : x ≠ c := fun h => hcs.2 (h ▸ (strContains_iff seen x).mp hx)
        have hcx : (x == c) = false := by simpa using hne
        rw [List.count_cons, hcx]
        simp
      rw [hmap, ih seen, List.filter_cons]
      have hneg : (!(seen.contains x)) = false := by rw [hx]; rfl
      rw [hneg]
      simp
    · have hx' : seen.contains x = false := by simpa using hx
      have hcond : ¬(seen.contains x = true) := by
        rw [hx']
        exact Bool.false_ne_true
      rw [if_neg hcond, List.map_cons, List.sum_cons]
      have hmap : (firstDedupAux (x :: seen) xs).map (fun c => (x :: xs).count c) =
          (firstDedupAux (x :: seen) xs).map (fun c => xs.count c) := by
        apply List.map_congr_left
        intro c hc
        have hcs := (mem_firstDedupAux xs (x :: seen) c).mp hc
        have hne : x ≠ c := fun h => hcs.2 (List.mem_cons.mpr (Or.inl h.symm))
        have hcx : (x == c) = false := by simpa using hne
        rw [List.count_cons, hcx]
        simp
      rw [hmap, ih (x :: seen), List.count_cons_self, List.filter_cons]
      have hpos : (!(seen.contains x)) = true := by rw [hx']; rfl
      rw [hpos]
      simp only [if_true, List.length_cons]
      have := count_filter_split x seen hx' xs
      omega

theorem sum_counts_firstDedup (l : List String) :
    ((firstDedup l).map (fun c => l.count c)).sum = l.length := by
  rw [firstDedup, sum_counts_firstDedupAux l []]
  simp

theorem length_value_counts (R : List WineRecord) :
    (value_counts R).length = (firstDedup (countryCol R)).length := by
  rw [value_counts, (perm_sortBy _ _).length_eq, List.length_map]

theorem sum_value_counts (R : List WineRecord) :
    ((value_counts R).map Prod.snd).sum = (countryCol R).length := by
  rw [value_counts, ((perm_sortBy _ _).map Prod.snd).sum_eq, List.map_map]
  exact sum_counts_firstDedup (countryCol R)

/-- C9: `top_countries` returns at most `k` pairs, every returned country
occurs (non-missing) in `R`, and taking `k` equal to the number of distinct
countries the counts sum to the number of records with a non-missing
country. -/
theorem c9_top_countries (R : List WineRecord) (k : Nat) :
    (top_countries R k).length ≤ k ∧
    (∀ c n, (c, n) ∈ top_countries R k → ∃ r ∈ R, r.country = some c) ∧
    ((top_countries R (firstDedup (countryCol R)).length).map Prod.snd).sum =
      (countryCol R).length := by
  refine ⟨?_, ?_, ?_⟩
  · rw [top_countries]
    exact List.length_take_le k _
  · intro c n hmem
    have h1 : (c, n) ∈ value_counts R := List.mem_of_mem_take hmem
    rw [value_counts, mem_sortBy] at h1
    rcases List.mem_map.mp h1 with ⟨c', hc', heq⟩
    have hcc : c' = c := congrArg Prod.fst heq
    rw [hcc] at hc'
    have h2 : c ∈ countryCol R := (mem_firstDedup _ c).mp hc'
    rcases List.mem_filterMap.mp h2 with ⟨r, hr, hrc⟩
    exact ⟨r, hr, hrc⟩
  · rw [top_countries, List.take_of_length_le (le_of_eq (length_value_counts R))]
    exact sum_value_counts R

/-- Arithmetic mean over a list of rationals; `none` models the `NaN` that
pandas' `mean()` yields over zero non-missing values. -/
def meanOpt (l : List ℚ) : Option ℚ :=
  if l.length = 0 then none else some (l.sum / l.length)

/-- The non-missing prices of the records of country `c`. -/
def pricesOf (R : List WineRecord) (c : String) : List ℚ :=
  (R.filter (fun r => r.country == some c)).filterMap (·.price_usd)

/-- The group keys of `df.groupby('Country')`: the distinct non-missing
countries, sorted ascending. -/
def groupCountries (R : List WineRecord) : List String :=
  sortBy strLeB (firstDedup (countryCol R))

/-- `df.groupby('Country')['Price_USD'].mean()` (lines 102 and 184): one
(country, mean) entry per distinct non-missing country, keys ascending; a
country all of whose prices are missing gets a `NaN` mean (`none`). -/
def avg_price_by_country (R : List WineRecord) : List (String × Option ℚ) :=
  (groupCountries R).map (fun c => (c, meanOpt (pricesOf R c)))

/-- Value comparison for the ascending argsort inside `sort_values`. -/
def leVal (a b : String × ℚ) : Bool := decide (a.2 ≤ b.2)

/-- `Series.sort_values(ascending=False)` on (key, value) pairs: pandas'
`nargsort` (≥ 1.2) reverses the non-missing entries, argsorts them ascending
with a stable sort, reverses the result — a stable descending sort, tied
entries keeping their original order — and keeps missing values at the end
(`na_position='last'`). -/
def sort_values_desc (l : List (String × Option ℚ)) : List (String × Option ℚ) :=
  ((sortBy leVal (l.filterMap (fun p => p.2.map (fun q => (p.1, q)))).reverse).reverse.map
      (fun p => (p.1, some p.2))) ++
    l.filter (fun p => p.2.isNone)

/-- `df.groupby('Country')['Price_USD'].mean().sort_values(ascending=False)
.head(10)` (line 102). -/
def avg_price_country (R : List WineRecord) : List (String × Option ℚ) :=
  (sort_values_desc (avg_price_by_country R)).take 10

/-- A record whose country is present but whose price is missing. -/
def recNoPrice : WineRecord := ⟨some "X", none, none, none, none⟩

/-- C5 counterexample: on a dataset whose only record has country "X" and a
missing price, both `groupby('Country').mean()` aggregates include country
"X" (with a `NaN` mean) even though it has zero non-missing price records —
the claim that such countries are absent from the output is false. -/
theorem c5_counterexample :
    pricesOf [recNoPrice] "X" = [] ∧
    avg_price_by_country [recNoPrice] = [("X", none)] ∧
    avg_price_country [recNoPrice] = [("X", none)] := by decide

/-- C5 amended: a country occurring in the data with zero non-missing price
records is included in the mean-price aggregates with a `NaN` mean (`none`),
and is never paired with a numeric mean (in particular never mean 0). -/
theorem c5_nan_mean_country (R : List WineRecord) (c : String)
    (hc : ∃ r ∈ R, r.country = some c) (hp : pricesOf R c = []) :
    (c, (none : Option ℚ)) ∈ avg_price_by_country R ∧
    ∀ q : ℚ, (c, some q) ∉ avg_price_by_country R := by
  have hcol : c ∈ countryCol R := by
    rcases hc with ⟨r, hr, hrc⟩
    exact List.mem_filterMap.mpr ⟨r, hr, hrc⟩
  have hgrp : c ∈ groupCountries R := by
    rw [groupCountries, mem_sortBy, mem_firstDedup]
    exact hcol
  constructor
  · have hmem : (c, meanOpt (pricesOf R c)) ∈ avg_price_by_country R :=
      List.mem_map_of_mem _ hgrp
    rw [hp] at hmem
    simpa [meanOpt] using hmem
  · intro q hq
    rcases List.mem_map.mp hq with ⟨c', _, heq⟩
    have hc' : c' = c := congrArg Prod.fst heq
    have hmean : meanOpt (pricesOf R c') = some q := congrArg Prod.snd heq
    rw [hc', hp] at hmean
    simp [meanOpt] at hmean

theorem c5_witness : ("X", (none : Option ℚ)) ∈ avg_price_by_country [recNoPrice] :=
  (c5_nan_mean_country [recNoPrice] "X"
    ⟨recNoPrice, List.mem_cons_self _ _, rfl⟩ (by decide)).1

/-- The §8-style record set with an invalid (min > max) price range and a
matching-everything selection, and a valid range with a selection matching
nothing, used for C4. -/
def invalidRangeC : ConstraintSpec :=
  ⟨["France", "US"], ["Burgundy", "Napa"], ["Pinot Noir", "Cabernet"],
   (10, 5), (0, 100), false⟩

/-- A valid-range constraint matching no record of the §8 scenario. -/
def noMatchC : ConstraintSpec :=
  ⟨["Nowhere"], ["Burgundy", "Napa"], ["Pinot Noir", "Cabernet"],
   (0, 1000), (0, 100), false⟩

/-- C4 counterexample: a price range with min 10 > max 5 is not rejected —
no `InvalidRangeError` exists anywhere in the pipeline — and filtering
silently proceeds to the empty result, which is indistinguishable from the
empty result of a genuine no-match constraint. -/
theorem c4_counterexample :
    invalidRangeC.price_range.2 < invalidRangeC.price_range.1 ∧
    filtered_df scenarioR invalidRangeC = [] ∧
    filtered_df scenarioR noMatchC = [] := by decide

/-- C4 amended: the code never validates ranges; with min > max, `filtered_df`
silently returns the empty sequence (in either filter branch). -/
theorem c4_invalid_range_empty (R : List WineRecord) (C : ConstraintSpec)
    (h : C.price_range.2 < C.price_range.1) :
    filtered_df R C = [] := by
  rw [filtered_df]
  split
  · rw [List.filter_eq_nil_iff]
    intro r _ hrow
    rcases ((focusRow_iff C r).mp hrow).2.2.2.1 with ⟨p, _, hlo, hhi⟩
    exact absurd (le_trans hlo hhi) (not_le.mpr h)
  · rw [List.filter_eq_nil_iff]
    intro r _ hrow
    rcases ((plainRow_iff C r).mp hrow).2.2.2.1 with ⟨p, _, hlo, hhi⟩
    exact absurd (le_trans hlo hhi) (not_le.mpr h)

theorem c4_witness : filtered_df scenarioR invalidRangeC = [] :=
  c4_invalid_range_empty scenarioR invalidRangeC (by decide)

/-- The shape of `Series.describe(percentiles=[.25, .5, .75, .9])` on a
numeric column (line 163). `var` stores the sample variance (ddof = 1), the
square of describe's `std`, to stay inside ℚ; it is `none` exactly when
describe's `std` is `NaN`. Every other `none` models a `NaN` statistic. -/
structure PriceStats where
  count : Nat
  mean : Option ℚ
  var : Option ℚ
  min : Option ℚ
  p25 : Option ℚ
  p50 : Option ℚ
  p75 : Option ℚ
  p90 : Option ℚ
  max : Option ℚ
  deriving Repr, DecidableEq

/-- Linearly interpolated percentile of an ascending-sorted list, numpy's
default `linear` interpolation; `none` (`NaN`) on an empty list. -/
def quantileInterp (s : List ℚ) (q : ℚ) : Option ℚ :=
  match s with
  | [] => none
  | _ :: _ =>
    let n := s.length
    let h : ℚ := q * (n - 1)
    let i : Nat := h.floor.toNat
    let lo := s.getD i 0
    let hi := s.getD (min (i + 1) (n - 1)) 0
    some (lo + (h - (i : ℚ)) * (hi - lo))

/-- Sample variance with denominator n - 1; `NaN` (`none`) for fewer than
two values, exactly when pandas' `std` is `NaN`. -/
def sampleVar (l : List ℚ) : Option ℚ :=
  if l.length ≤ 1 then none
  else
    let m := l.sum / l.length
    some ((l.map (fun x => (x - m) ^ 2)).sum / ((l.length : ℚ) - 1))

/-- `filtered_df['Price_USD'].describe(percentiles=[.25, .5, .75, .9])`
(line 163), applied to the record set it is given: statistics over the
non-missing prices only; `describe` does not raise on an all-missing
column, it returns count 0 and `NaN` for every other statistic. -/
def price_stats (R : List WineRecord) : PriceStats :=
  let v := R.filterMap (·.price_usd)
  let s := sortBy (fun a b : ℚ => decide (a ≤ b)) v
  { count := v.length
    mean := meanOpt v
    var := sampleVar v
    min := s.head?
    p25 := quantileInterp s (1 / 4)
    p50 := quantileInterp s (1 / 2)
    p75 := quantileInterp s (3 / 4)
    p90 := quantileInterp s (9 / 10)
    max := s.getLast? }

/-- C3 counterexample: on an input whose only price is missing, `describe`
does not fail — it returns a value with count 0 and a `NaN` (`none`) mean —
so `priceSummary` neither raises an `EmptyInputError` nor avoids `NaN`. -/
theorem c3_counterexample :
    (price_stats [recNoPrice]).count = 0 ∧
    (price_stats [recNoPrice]).mean = none := by decide

/-- C3 amended: when zero non-missing price values exist, `price_stats`
returns normally with count 0 and every other statistic `NaN` (`none`);
no error is raised. -/
theorem c3_describe_all_missing (R : List WineRecord)
    (h : R.filterMap (·.price_usd) = []) :
    price_stats R = ⟨0, none, none, none, none, none, none, none, none⟩ := by
  rw [price_stats, h]
  rfl

theorem c3_witness :
    price_stats [recNoPrice] = ⟨0, none, none, none, none, none, none, none, none⟩ :=
  c3_describe_all_missing [recNoPrice] rfl

/-- One full render of the dashboard page: the filtered table plus the three
country-level aggregates, which the source computes from the full `df`, not
from `filtered_df` (lines 85, 102 and 184). -/
structure DashboardView where
  filtered : List WineRecord
  topCountries : List (String × Nat)
  avgPriceTop : List (String × Option ℚ)
  mapAvgPrice : List (String × Option ℚ)

/-- The dashboard computation for one dataset and one sidebar state. -/
def render (R : List WineRecord) (C : ConstraintSpec) : DashboardView :=
  ⟨filtered_df R C, top_countries R 10, avg_price_country R, avg_price_by_country R⟩

/-- C10: the country-count ranking, the country average-price ranking and the
country mean-price map are computed from the full dataset: two renders of the
same dataset under any two constraint selections agree on all three
aggregates. -/
theorem c10_aggregates_filter_independent (R : List WineRecord)
    (C₁ C₂ : ConstraintSpec) :
    (render R C₁).topCountries = (render R C₂).topCountries ∧
    (render R C₁).avgPriceTop = (render R C₂).avgPriceTop ∧
    (render R C₁).mapAvgPrice = (render R C₂).mapAvgPrice :=
  ⟨rfl, rfl, rfl⟩

/-- The ordering C6 states for the average-price ranking: strictly
descending mean, ties broken by ascending country name, `NaN` means last. -/
def descAscTie (a b : String × Option ℚ) : Bool :=
  match a.2, b.2 with
  | some qa, some qb => decide (qb < qa) || (decide (qa = qb) && strLtB a.1 b.1)
  | some _, none => true
  | none, none => true
  | none, some _ => false

/-- A record from country "A" with price 10. -/
def recA : WineRecord := ⟨some "A", none, none, some 10, none⟩

/-- A record from country "B" with price 10. -/
def recB : WineRecord := ⟨some "B", none, none, some 10, none⟩

/-- Value-ascending order on priced entries with ties in descending name
order: the shape of the stable ascending sort of a name-descending input
(the pre-reversed groupby output). -/
def lexValAsc (a b : String × ℚ) : Prop :=
  a.2 < b.2 ∨ (a.2 = b.2 ∧ b.1 < a.1)

theorem pairwise_insVal (x : String × ℚ) (l : List (String × ℚ))
    (hl : l.Pairwise lexValAsc) (hn : ∀ y ∈ l, y.1 < x.1) :
    (insBy leVal x l).Pairwise lexValAsc := by
  induction l with
  | nil => simp [insBy, List.pairwise_singleton]
  | cons y ys ih =>
    rw [insBy]
    rcases List.pairwise_cons.mp hl with ⟨hy, hys⟩
    split
    · rename_i hxy
      have hxle : x.2 ≤ y.2 := by simpa [leVal] using hxy
      refine List.pairwise_cons.mpr ⟨?_, hl⟩
      intro z hz
      have hxz : x.2 ≤ z.2 := by
        rcases List.mem_cons.mp hz with rfl | hz'
        · exact hxle
        · rcases hy z hz' with h | ⟨heq, _⟩
          · exact le_trans hxle (le_of_lt h)
          · exact le_trans hxle (le_of_eq heq)
      rcases lt_or_eq_of_le hxz with h | h
      · exact Or.inl h
      · exact Or.inr ⟨h, hn z hz⟩
    · rename_i hxy
      have hylt : y.2 < x.2 := lt_of_not_le (fun h => hxy (by simp [leVal, h]))
      refine List.pairwise_cons.mpr
        ⟨?_, ih hys (fun z hz => hn z (List.mem_cons_of_mem y hz))⟩
      intro z hz
      rcases List.mem_cons.mp ((perm_insBy leVal x ys).mem_iff.mp hz) with rfl | hz'
      · exact Or.inl hylt
      · exact hy z hz'

theorem pairwise_sortVal (l : List (String × ℚ))
    (hn : l.Pairwise (fun a b => b.1 < a.1)) :
    (sortBy leVal l).Pairwise lexValAsc := by
  induction l with
  | nil => simp [sortBy]
  | cons x xs ih =>
    rw [sortBy]
    rcases List.pairwise_cons.mp hn with ⟨hx, hxs⟩
    exact pairwise_insVal x (sortBy leVal xs) (ih hxs)
      (fun y hy => hx y ((mem_sortBy leVal xs y).mp hy))

theorem pairwise_names_avg (R : List WineRecord) :
    (avg_price_by_country R).Pairwise (fun a b => a.1 < b.1) := by
  rw [avg_price_by_country, List.pairwise_map]
  have hs : (groupCountries R).Pairwise (fun a b : String => strLeB a b = true) :=
    pairwise_sortBy _ strLeB_total strLeB_trans _
  have hnd : (groupCountries R).Nodup :=
    (perm_sortBy _ _).nodup_iff.mpr (nodup_firstDedup _)
  exact (hs.and hnd).imp
    (fun h => lt_of_le_of_ne ((strLeB_iff _ _).mp h.1) h.2)

theorem descAscTie_of_none (a b : String × Option ℚ) (hb : b.2 = none) :
    descAscTie a b = true := by
  obtain ⟨a1, a2⟩ := a
  obtain ⟨b1, b2⟩ := b
  simp only at hb
  subst hb
  cases a2 <;> rfl

/-- C6: the average-price ranking is sorted descending by mean, two
countries with equal mean appear in ascending name order (pandas' stable
descending sort keeps the groupby's ascending-name order on ties), and
`NaN`-mean countries come last; on the two-country equal-mean scenario the
ranking lists "A" before "B". -/
theorem c6_ranking_order :
    (∀ R : List WineRecord,
      (avg_price_country R).Pairwise (fun a b => descAscTie a b = true)) ∧
    avg_price_country [recA, recB] = [("A", some 10), ("B", some 10)] := by
  constructor
  · intro R
    rw [avg_price_country]
    apply List.Pairwise.sublist (List.take_sublist _ _)
    rw [sort_values_desc, List.pairwise_append]
    refine ⟨?_, ?_, ?_⟩
    · rw [List.pairwise_map, List.pairwise_reverse]
      have hnames : ((avg_price_by_country R).filterMap
          (fun p => p.2.map (fun q => (p.1, q)))).Pairwise
            (fun a b : String × ℚ => a.1 < b.1) := by
        refine List.Pairwise.filterMap _ ?_ (pairwise_names_avg R)
        intro a b hab x hx y hy
        rcases Option.map_eq_some'.mp hx with ⟨qa, _, rfl⟩
        rcases Option.map_eq_some'.mp hy with ⟨qb, _, rfl⟩
        exact hab
      have hrev : (((avg_price_by_country R).filterMap
          (fun p => p.2.map (fun q => (p.1, q)))).reverse).Pairwise
            (fun a b : String × ℚ => b.1 < a.1) :=
        List.pairwise_reverse.mpr hnames
      have hsorted := pairwise_sortVal _ hrev
      refine hsorted.imp ?_
      intro a b hab
      rcases hab with h | ⟨heq, hname⟩
      · simp [descAscTie, h]
      · have hn : strLtB b.1 a.1 = true := (strLtB_iff _ _).mpr hname
        simp [descAscTie, heq, hn]
    · refine List.pairwise_of_forall_mem_list ?_
      intro a _ b hb
      exact descAscTie_of_none a b
        (Option.isNone_iff_eq_none.mp (List.mem_filter.mp hb).2)
    · intro a _ b hb
      exact descAscTie_of_none a b
        (Option.isNone_iff_eq_none.mp (List.mem_filter.mp hb).2)
  · have havg : avg_price_by_country [recA, recB] = [("A", some 10), ("B", some 10)] := by
      have hg : groupCountries [recA, recB] = ["A", "B"] := by decide
      have hpA : pricesOf [recA, recB] "A" = [(10 : ℚ)] := by decide
      have hpB : pricesOf [recA, recB] "B" = [(10 : ℚ)] := by decide
      have hm : meanOpt [(10 : ℚ)] = some 10 := by
        norm_num [meanOpt]
      rw [avg_price_by_country, hg]
      simp [hpA, hpB, hm]
    rw [avg_price_country, havg]
    decide
